import Mathlib

/-!
Verification of the chain kernel and gossip node of the Laziest repository.

The Go sources under `src/` are embedded shallowly:

* `kernel/chain.go` (`ChainT` and its methods) is translated function by
  function into Lean definitions over a `ChainT` structure.
* The `BigInt` implementation (`math/big` wrapper) is translated with
  `Int` standing for `big.Int`; `Uint64` truncation is modelled as
  `natAbs % 2^64`, which is the behaviour of `big.Int.Uint64` on its
  defined domain.
* `network/node.go` state transitions (connection admission, seen-set
  insertion, the per-connection read loop) are translated into explicit
  state-passing functions; the mutexes in the Go code make each of these
  operations atomic, so a sequential trace semantics is faithful.
* The `Block`, `Transaction` and `PubKey` implementations are not part of
  `src/`; they are modelled from the spec as structures exposing exactly
  the attributes the chain code consumes.
-/

namespace Laziest

/-- Opaque byte-string hash; equality is byte-wise (spec §3 "Hash"). -/
abbrev Hash := List Nat

/-- Modelled from the spec: the crypto collaborator's public key.  It
exposes `Address()` (a stable textual identifier) and `Equal` (decidable
equality); the key material itself is abstracted into the address. -/
structure PubKey where
  address : String
deriving DecidableEq, Inhabited

/-- Modelled from the spec: a transaction exposes `Validator()` and
`IsValid()`; payload and signature are abstracted into the `valid` flag. -/
structure Transaction where
  validator : PubKey
  valid : Bool
deriving DecidableEq, Inhabited

/-- Modelled from the spec: a block carries a back-link `lastHash`, an
ordered transaction list, the accepting validator, its content hash, and
a flag `sigOk` abstracting "accepted and the signature verifies". -/
structure Block where
  lastHash : Hash
  txs : List Transaction
  validator : PubKey
  hash : Hash
  sigOk : Bool
deriving DecidableEq, Inhabited

/-- Modelled from the spec: `Block.IsValid()` is true iff the block was
accepted with a verifying signature and every contained tx is valid. -/
def Block.IsValid (b : Block) : Bool :=
  b.sigOk && b.txs.all (fun t => t.valid)

/-- Modelled from the spec: `Block.Length()` is the transaction count. -/
def Block.Length (b : Block) : Int :=
  (b.txs.length : Int)

/-- `BigIntT.Uint64` from the source: the low 64 bits of the magnitude
(the behaviour of `big.Int.Uint64`). -/
def Uint64 (x : Int) : Nat := x.natAbs % 2 ^ 64

/-- Value of a big-endian digit list in the given base
(`big.Int.SetBytes` for base 256). -/
def digitsVal (base : Nat) (l : List Nat) : Nat :=
  l.foldl (fun a d => a * base + d) 0

/-- `LoadInt` from the source: interpret bytes as an unsigned big-endian
integer. -/
def LoadInt (l : List Nat) : Int :=
  (digitsVal 256 l : Int)

/-- Big-endian digit expansion of a natural number in the given base,
with explicit fuel so that the definition is structural; `natDigitsBE b f n`
is the minimal expansion (no leading zeros, `[]` for `0`) whenever `n ≤ f`. -/
def natDigitsBE (base : Nat) : Nat → Nat → List Nat
  | 0, _ => []
  | fuel + 1, n =>
    if n = 0 then []
    else natDigitsBE base fuel (n / base) ++ [n % base]

/-- `BigIntT.Bytes` from the source: minimal big-endian magnitude bytes
(`big.Int.Bytes`). -/
def bigBytes (x : Int) : List Nat :=
  natDigitsBE 256 x.natAbs x.natAbs

/-- Digit as a character, for decimal rendering. -/
def digitChar (d : Nat) : Char := Char.ofNat (48 + d)

/-- `BigIntT.String` from the source: canonical base-10 rendering with a
leading minus sign exactly when negative (`big.Int.String`). -/
def bigString (x : Int) : String :=
  if x < 0 then String.mk ('-' :: (natDigitsBE 10 x.natAbs x.natAbs).map digitChar)
  else if x = 0 then "0"
  else String.mk ((natDigitsBE 10 x.natAbs x.natAbs).map digitChar)

/-- Parse a nonempty run of decimal digit characters, accumulator style;
`none` on any non-digit. -/
def parseDigitsAux : List Char → Nat → Option Nat
  | [], acc => some acc
  | c :: rest, acc =>
    if 48 ≤ c.toNat ∧ c.toNat ≤ 57 then parseDigitsAux rest (acc * 10 + (c.toNat - 48))
    else none

/-- Digit-run parser: rejects the empty string. -/
def parseDigits (l : List Char) : Option Nat :=
  match l with
  | [] => none
  | _ => parseDigitsAux l 0

/-- `NewInt` from the source: `big.Int.SetString` in base 10 — an optional
sign followed by a nonempty digit run; `none` (Go `nil`) on malformed
input. -/
def NewInt (s : String) : Option Int :=
  match s.data with
  | [] => none
  | c :: rest =>
    if c = '-' then (parseDigits rest).map (fun n : Nat => -(n : Int))
    else if c = '+' then (parseDigits rest).map (fun n : Nat => (n : Int))
    else (parseDigits (c :: rest)).map (fun n : Nat => (n : Int))

/-- Modelled from the spec: `Block.Range(lo, hi)` returns the contiguous
subsequence of transactions `[lo, hi)` (indices narrowed through
`Uint64`), failing out of range.  (The Block implementation is not under
`src/`; only this call shape is used by `chain.go`.) -/
def Block.Range (b : Block) (x y : Int) : Option (List Transaction) :=
  if Uint64 x ≤ Uint64 y ∧ Uint64 y ≤ b.txs.length then
    some ((b.txs.drop (Uint64 x)).take (Uint64 y - Uint64 x))
  else none

/-- The chain state from `kernel/chain.go`: a block sequence plus a
`BigInt` length field. -/
structure ChainT where
  length : Int
  blocks : List Block
deriving DecidableEq, Inhabited

/-- `ChainT.Length` from the source. -/
def ChainT.Length (c : ChainT) : Int := c.length

/-- `ChainT.LastHash` from the source: the hash of
`blocks[length.Uint64() - 1]`.  The Go code panics when the index is out
of range; the model totalises with a default block, and every theorem
that depends on `LastHash` carries a well-formedness hypothesis placing
the index in range. -/
def ChainT.LastHash (c : ChainT) : Hash :=
  (c.blocks.getD (Uint64 c.length - 1) default).hash

/-- `ChainT.Find` from the source: linear scan for the first block whose
hash equals the argument, `none` for Go's `nil`. -/
def ChainT.Find (c : ChainT) (h : Hash) : Option Block :=
  c.blocks.find? (fun b => b.hash == h)

/-- `ChainT.IsValid` from the source.  Note that the loop compares every
block's `LastHash()` with `chain.LastHash()` — the hash of the tail
block — not with the preceding block's hash. -/
def ChainT.IsValid (c : ChainT) : Bool :=
  c.blocks.all (fun b => b.IsValid && (b.lastHash == c.LastHash))

/-- `ChainT.Append` from the source.  The Go method first runs the type
assertion `block := obj.(Block)`: on a nil interface the assertion
panics before the `block == nil` check is reached, and a typed-nil
value passes the assertion as a non-nil interface, so the Go method's
`"block is null"` error branch is dead code.  The model returns `none`
for that panic; in the surviving cases it pairs the returned error (as
its message string) with the post-state of the receiver. -/
def ChainT.Append (c : ChainT) (obj : Option Block) : Option (Option String × ChainT) :=
  match obj with
  | none => none
  | some block =>
    if !block.IsValid then some (some "block is invalid", c)
    else if !(block.lastHash == c.LastHash) then some (some "relation is invalid", c)
    else some (none, ⟨c.length + 1, c.blocks ++ [block]⟩)

/-- `ChainT.Range` from the source: the Go slice expression
`chain.blocks[x.Uint64():y.Uint64()]`.  A Go slice expression is
bounded by the capacity of the backing array, not by its length: it
panics (`none`) only when `x > y` or `y` exceeds the capacity, and for
`length < y ≤ cap` it succeeds, exposing the zero-valued (nil) `Block`
entries between the length and `y`.  The capacity is a runtime
quantity (fixed by `append`'s growth policy, not by this source), so
the model takes it as an explicit parameter `cap`, meaningful when
`c.blocks.length ≤ cap`; the returned entries are `Option Block`, with
`none` standing for the nil `Block` interface beyond the length. -/
def ChainT.Range (c : ChainT) (cap : Nat) (x y : Int) : Option (List (Option Block)) :=
  if Uint64 x ≤ Uint64 y ∧ Uint64 y ≤ cap then
    some (((c.blocks.map some ++ List.replicate (cap - c.blocks.length) none).drop
      (Uint64 x)).take (Uint64 y - Uint64 x))
  else none

/-- Does `pub` appear in the block, as block validator or as validator of
a contained transaction?  (The test performed by one iteration of
`LazyInterval`.) -/
def blockHasPub (b : Block) (pub : PubKey) : Bool :=
  (b.validator == pub) || b.txs.any (fun t => t.validator == pub)

/-- The loop body of `ChainT.LazyInterval` from the source, with explicit
fuel (the Go `for {}` loop can only fail to terminate on a back-link
cycle, which well-formedness excludes; `none` models non-termination). -/
def ChainT.lazyGo (c : ChainT) (pub : PubKey) : Nat → Block → Int → Option Int
  | 0, _, _ => none
  | fuel + 1, block, diff =>
    if block.validator == pub then some diff
    else
      match block.Range 0 block.Length with
      | none => some (-1)
      | some txs =>
        if txs.any (fun t => t.validator == pub) then some diff
        else
          match c.Find block.lastHash with
          | none => some (-1)
          | some b => c.lazyGo pub fuel b (diff + 1)

/-- `ChainT.LazyInterval` from the source.  `none` models the panic of
the type assertion `chain.Find(chain.LastHash()).(Block)` when `Find`
returns `nil`, or a non-terminating walk. -/
def ChainT.LazyInterval (c : ChainT) (pub : PubKey) : Option Int :=
  match c.Find c.LastHash with
  | none => none
  | some block => c.lazyGo pub (c.blocks.length + 1) block 0

/-- Lexicographic strict comparison of character lists:
`strings.Compare(a, b) < 0`. -/
def charListLT : List Char → List Char → Bool
  | [], [] => false
  | [], _ :: _ => true
  | _ :: _, [] => false
  | a :: as, b :: bs =>
    if a.toNat < b.toNat then true
    else if b.toNat < a.toNat then false
    else charListLT as bs

/-- Non-strict address order: `a` may stay before `b` exactly when `b`'s
address is not strictly below `a`'s. -/
def addrLe (a b : PubKey) : Bool :=
  !(charListLT b.address.data a.address.data)

/-- Stable ascending sort by `Address()`: the contract of
`sort.SliceStable` with comparator `strings.Compare(a.Address, b.Address) < 0`,
modelled by insertion sort (which is stable: an element is inserted
before the first element not strictly below it, so address-equal
elements keep their original order). -/
def sortByAddr (l : List PubKey) : List PubKey :=
  l.insertionSort (fun a b => addrLe a b = true)

/-- The selection loop of `ChainT.SelectLazy` from the source; `none`
propagates a panic inside `LazyInterval`. -/
def ChainT.selectLoop (c : ChainT) : List PubKey → List PubKey → Int → Option (List PubKey × Int)
  | [], finds, diff => some (finds, diff)
  | pub :: rest, finds, diff =>
    match c.LazyInterval pub with
    | none => none
    | some lazyLevel =>
      if lazyLevel > diff then c.selectLoop rest [pub] lazyLevel
      else if lazyLevel = diff then c.selectLoop rest (finds ++ [pub]) diff
      else c.selectLoop rest finds diff

/-- `ChainT.SelectLazy` from the source.  After the loop, when more than
one candidate remains the tied list is stably sorted by address and the
element at index `LoadInt(LastHash).Uint64 % len(finds)` is returned;
with no candidate the Go code panics on `finds[0]` (`none` here). -/
def ChainT.SelectLazy (c : ChainT) (validators : List PubKey) : Option PubKey :=
  match c.selectLoop validators [] 0 with
  | none => none
  | some (finds, _) =>
    if finds.length > 1 then
      some ((sortByAddr finds).getD (Uint64 (LoadInt c.LastHash) % finds.length) default)
    else finds.head?

/-- Back-link consistency of consecutive blocks: each block's `lastHash`
equals its predecessor's content hash. -/
def backLinksOk : List Block → Bool
  | [] => true
  | [_] => true
  | a :: b :: rest => (b.lastHash == a.hash) && backLinksOk (b :: rest)

/-- Well-formed chain state: the length field counts the blocks, the
chain is nonempty and small enough for `Uint64` narrowing to be exact,
block hashes are pairwise distinct, back-links are consistent, the
genesis back-link (`ChainID`) is not the hash of any block, and every
block's transaction list is `Uint64`-small. -/
def ChainWF (c : ChainT) : Prop :=
  c.length = (c.blocks.length : Int) ∧
  c.blocks ≠ [] ∧
  c.blocks.length < 2 ^ 64 ∧
  (c.blocks.map Block.hash).Nodup ∧
  backLinksOk c.blocks = true ∧
  (∀ b ∈ c.blocks, (c.blocks.getD 0 default).lastHash ≠ b.hash) ∧
  (∀ b ∈ c.blocks, b.txs.length < 2 ^ 64)

instance (c : ChainT) : Decidable (ChainWF c) :=
  inferInstanceAs (Decidable
    (c.length = (c.blocks.length : Int) ∧
     c.blocks ≠ [] ∧
     c.blocks.length < 2 ^ 64 ∧
     (c.blocks.map Block.hash).Nodup ∧
     backLinksOk c.blocks = true ∧
     (∀ b ∈ c.blocks, (c.blocks.getD 0 default).lastHash ≠ b.hash) ∧
     (∀ b ∈ c.blocks, b.txs.length < 2 ^ 64)))

/-- The chain-validity predicate exactly as claim C1 states it: every
block individually valid, the genesis back-link equals the chain id, and
every later block's back-link equals its predecessor's hash. -/
def specChainIsValid (chainId : Hash) (c : ChainT) : Bool :=
  c.blocks.all Block.IsValid &&
  (match c.blocks with
   | [] => true
   | g :: _ => g.lastHash == chainId) &&
  backLinksOk c.blocks

/-! Gossip node state transitions from `network/node.go`.  The mutexes in
the Go code make every read and mutation of `mapping` and `connections`
atomic, so the functions below are an interleaving-faithful sequential
model of those critical sections. -/

/-- Modelled from the spec: the `IsNode` role byte (the settings file
defining the byte values is not under `src/`; only distinctness of the
tags matters). -/
def IsNode : Nat := 1

/-- Modelled from the spec: the `IsClient` role byte. -/
def IsClient : Nat := 2

/-- A wire message as `network/types.go` exposes it to the node: a
32-bit head tag and a stable textual hash used as the dedup key. -/
structure Message where
  head : Nat
  hash : String
deriving DecidableEq

/-- `NodeT.setMapping` from the source: when the seen-set is over
`MappSize`, evict one entry (Go evicts an arbitrary map key; the model
evicts the oldest, a representative choice that claims about sizes and
membership do not depend on), then insert the hash. -/
def setMapping (mappSize : Nat) (mapping : List String) (hash : String) : List String :=
  let m := if mapping.length > mappSize then mapping.drop 1 else mapping
  if hash ∈ m then m else m ++ [hash]

/-- `NodeT.Broadcast` from the source, restricted to its effect on the
node's own state: mark the message hash as seen (the concurrent writes
to peers do not touch node state). -/
def Broadcast (mappSize : Nat) (mapping : List String) (m : Message) : List String :=
  setMapping mappSize mapping m.hash

/-- One iteration of `NodeT.handleConn` for a decoded message: a hash
already in the seen-set is silently dropped; otherwise it is inserted
and dispatch invokes the handler registered for the head (`routes` tells
whether one is registered).  Returns the new seen-set and how many
handler invocations the message caused (0 or 1). -/
def handleConnStep (mappSize : Nat) (routes : Nat → Bool) (mapping : List String)
    (m : Message) : List String × Nat :=
  if m.hash ∈ mapping then (mapping, 0)
  else (setMapping mappSize mapping m.hash, if routes m.head then 1 else 0)

/-- Processing a sequence of received messages, accumulating the number
of handler invocations. -/
def handleTrace (mappSize : Nat) (routes : Nat → Bool) :
    List Message → List String → List String × Nat
  | [], mapping => (mapping, 0)
  | m :: ms, mapping =>
    let s := handleConnStep mappSize routes mapping m
    let r := handleTrace mappSize routes ms s.1
    (r.1, s.2 + r.2)

/-- Connection-set events: an inbound accept carrying a role byte, a
successful outbound dial (`Connect`), and a disconnect. -/
inductive NEvent where
  | accept (role : Nat)
  | connectOk
  | disconnect
deriving DecidableEq

/-- Effect of one event on the connection count, from `NodeT.Listen`,
`NodeT.Connect` and `NodeT.delConnection`: both admission paths first
check `hasMaxConnSize`, i.e. `len(connections) > ConnSize`, and only the
`IsNode` role byte admits an inbound peer. -/
def connStep (connSize : Nat) (conns : Nat) : NEvent → Nat
  | .accept role =>
    if conns > connSize then conns
    else if role = IsNode then conns + 1
    else conns
  | .connectOk => if conns > connSize then conns else conns + 1
  | .disconnect => conns - 1

/-- Connection count after a sequence of events, starting from an empty
connection set. -/
def runConns (connSize : Nat) (evs : List NEvent) : Nat :=
  evs.foldl (connStep connSize) 0

/-- The lazy interval as the claim states it, over the block list read
tail-first: the number of blocks one must walk back from the tail before
encountering a block in which `pub` appears (as block validator or as
validator of a contained transaction), and `-1` when `pub` appears
nowhere and the walk falls off the chain. -/
def lazySpecList (pub : PubKey) : List Block → Int
  | [] => -1
  | b :: rest =>
    if blockHasPub b pub then 0
    else
      let r := lazySpecList pub rest
      if r = -1 then -1 else r + 1

/-- The lazy-interval walk, indexed from the genesis side: walking back
starting at block `k`, with the distance accumulator `d`. -/
def specWalkAux (L : List Block) (pub : PubKey) : Nat → Int → Int
  | 0, d => if blockHasPub (L.getD 0 default) pub then d else -1
  | k + 1, d =>
    if blockHasPub (L.getD (k + 1) default) pub then d
    else specWalkAux L pub k (d + 1)

/-- The lazy interval of a candidate, as the tail-first specification
reads it off the chain. -/
def lazyOf (c : ChainT) (p : PubKey) : Int := lazySpecList p c.blocks.reverse

/-- Running maximum of `ι` over a candidate list, seeded with 0 exactly
as `SelectLazy` seeds `diff` with `NewInt("0")`. -/
def foldMax (ι : PubKey → Int) (l : List PubKey) : Int :=
  l.foldl (fun m p => max m (ι p)) 0

/-- The maximal lazy level `SelectLazy` tracks over the candidates. -/
def maxLazy (c : ChainT) (vs : List PubKey) : Int := foldMax (lazyOf c) vs

/-- The tied candidates: those whose lazy interval attains the tracked
maximum, in candidate order. -/
def tiedLazy (c : ChainT) (vs : List PubKey) : List PubKey :=
  vs.filter (fun p => lazyOf c p == maxLazy c vs)

/-- A validator and transaction used to build concrete chains. -/
def vA : PubKey := ⟨"A"⟩

/-- A concrete valid transaction. -/
def txA : Transaction := ⟨vA, true⟩

/-- A concrete valid genesis block: back-link `[0]` (the chain id), one
valid transaction, content hash `[1]`. -/
def gBlock : Block := ⟨[0], [txA], vA, [1], true⟩

/-- The concrete one-block chain built from `gBlock`. -/
def chain1 : ChainT := ⟨1, [gBlock]⟩

/-- A concrete valid block extending `chain1`: back-link `[1]`
(`chain1.LastHash`), content hash `[2]`. -/
def bBlock : Block := ⟨[1], [txA], vA, [2], true⟩

/-- A block failing `IsValid` (its signature flag is down), correctly
back-linked to `chain1`. -/
def badBlock : Block := ⟨[1], [txA], vA, [3], false⟩

/-- The concrete two-block chain `gBlock`, `bBlock`. -/
def chain2 : ChainT := ⟨2, [gBlock, bBlock]⟩

/-- A public key appearing nowhere in the concrete chains. -/
def pubW : PubKey := ⟨"W"⟩

/-- A second validator, its transaction, and a chain in which both `vA`
(as block validator) and `vB` (as transaction validator) have lazy
interval 0, to exercise the tie-break. -/
def vB : PubKey := ⟨"B"⟩

/-- A valid transaction attributed to `vB`. -/
def txB : Transaction := ⟨vB, true⟩

/-- A valid block extending `chain1` whose transaction is validated by
`vB` while the block itself is accepted by `vA`. -/
def b3Block : Block := ⟨[1], [txB], vA, [2], true⟩

/-- The two-block chain `gBlock`, `b3Block`. -/
def chain3 : ChainT := ⟨2, [gBlock, b3Block]⟩

/-- A public key appearing nowhere in the concrete chains, distinct from
`pubW`. -/
def pubZ : PubKey := ⟨"Z"⟩

/-- `Uint64` narrowing is exact on small non-negative integers. -/
theorem Uint64_eq_toNat {x : Int} (h0 : 0 ≤ x) (hlt : x < 2 ^ 64) :
    Uint64 x = x.toNat := by
  have h2 : (2 : Nat) ^ 64 = 18446744073709551616 := by norm_num
  have h2' : (2 : Int) ^ 64 = 18446744073709551616 := by norm_num
  unfold Uint64
  rw [h2]
  omega

/-- Inserting a hash always leaves it in the seen-set. -/
theorem mem_setMapping_self (mappSize : Nat) (mapping : List String) (h : String) :
    h ∈ setMapping mappSize mapping h := by
  unfold setMapping
  set m := if mapping.length > mappSize then mapping.drop 1 else mapping with hm
  by_cases hmem : h ∈ m
  · simp [hmem]
  · simp [hmem]

/-- Messages whose hash is already in the seen-set are dropped without
touching the state or invoking any handler. -/
theorem handleTrace_seen (mappSize : Nat) (routes : Nat → Bool) (m : Message)
    (n : Nat) (mapping : List String) (hmem : m.hash ∈ mapping) :
    handleTrace mappSize routes (List.replicate n m) mapping = (mapping, 0) := by
  induction n with
  | zero => rfl
  | succ k ih =>
    rw [List.replicate_succ]
    unfold handleTrace
    rw [handleConnStep, if_pos hmem]
    simpa using ih

/-- C5: after `Broadcast(m)` marks `m`'s hash as seen, any number of
subsequently received copies of `m` are all dropped by the seen-set
check, so the handler registered for `m.head` is invoked zero times for
them — in particular at most once. -/
theorem c5_broadcast_dedup (mappSize : Nat) (routes : Nat → Bool)
    (mapping : List String) (m : Message) (n : Nat) :
    (handleTrace mappSize routes (List.replicate n m)
      (Broadcast mappSize mapping m)).2 = 0 := by
  rw [Broadcast,
    handleTrace_seen mappSize routes m n _ (mem_setMapping_self mappSize mapping m.hash)]

/-- C6 counterexample: with `ConnSize = 1` and the node already holding
`ConnSize` connections, the next (`ConnSize+1`-th) inbound `IsNode`
connection is admitted, not refused, so the connection count reaches
`ConnSize + 1 = 2`, contradicting the claim that it never exceeds
`ConnSize`. -/
theorem c6_counterexample :
    runConns 1 [NEvent.accept IsNode, NEvent.accept IsNode] = 2 ∧ ¬(2 ≤ 1) := by
  decide

/-- C6 amended: an accept is refused (closed without being admitted)
exactly once the count already exceeds `ConnSize`, so the connection
count can reach, but never exceeds, `ConnSize + 1`. -/
theorem c6_conn_bound (connSize : Nat) :
    (∀ conns role, conns > connSize → connStep connSize conns (.accept role) = conns) ∧
    (∀ evs, runConns connSize evs ≤ connSize + 1) := by
  constructor
  · intro conns role hgt
    simp [connStep, if_pos hgt]
  · intro evs
    have aux : ∀ (l : List NEvent) (conns : Nat), conns ≤ connSize + 1 →
        l.foldl (connStep connSize) conns ≤ connSize + 1 := by
      intro l
      induction l with
      | nil => intro conns h; simpa using h
      | cons e rest ih =>
        intro conns h
        rw [List.foldl_cons]
        refine ih _ ?_
        cases e with
        | accept role =>
          by_cases hgt : conns > connSize
          · simpa [connStep, hgt] using h
          · by_cases hr : role = IsNode
            · simp only [connStep, if_neg hgt, if_pos hr]
              omega
            · simp only [connStep, if_neg hgt, if_neg hr]
              omega
        | connectOk =>
          by_cases hgt : conns > connSize
          · simpa [connStep, hgt] using h
          · simp only [connStep, if_neg hgt]
            omega
        | disconnect =>
          simp only [connStep]
          omega
    exact aux evs 0 (by omega)

/-- C6 amended witness: with `ConnSize = 1`, an accept arriving at count
2 is refused, and three inbound accepts from an empty node still leave
at most 2 connections. -/
theorem c6_conn_bound_witness :
    connStep 1 2 (NEvent.accept 5) = 2 ∧
    runConns 1 [NEvent.accept 1, NEvent.accept 1, NEvent.accept 1] ≤ 2 := by
  exact ⟨(c6_conn_bound 1).1 2 5 (by decide),
    (c6_conn_bound 1).2 [NEvent.accept 1, NEvent.accept 1, NEvent.accept 1]⟩

/-- C7 counterexample: with `MappSize = 1`, inserting the fresh hashes
"a", "b", "c" in turn leaves the seen-set at 2 = `MappSize + 1` entries
after the third insert completes — the post-insert size bound `MappSize`
claimed does not hold (eviction happens before insert, so a fresh hash
lands on top of `MappSize` surviving entries). -/
theorem c7_counterexample :
    (setMapping 1 (setMapping 1 (setMapping 1 [] "a") "b") "c").length = 2 ∧
    ¬((setMapping 1 (setMapping 1 (setMapping 1 [] "a") "b") "c").length ≤ 1) := by
  decide

/-- C7 amended: the seen-set never exceeds `MappSize + 1` entries — one
insert into a set that is over `MappSize` first evicts — and after any
insert completes its size is at most `MappSize + 1` (not `MappSize`). -/
theorem c7_mapping_bound (mappSize : Nat) :
    (∀ st h, st.length ≤ mappSize + 1 →
      (setMapping mappSize st h).length ≤ mappSize + 1) ∧
    (∀ hs : List String, ((hs.foldl (setMapping mappSize) []).length ≤ mappSize + 1)) := by
  have step : ∀ (st : List String) (h : String), st.length ≤ mappSize + 1 →
      (setMapping mappSize st h).length ≤ mappSize + 1 := by
    intro st h hle
    unfold setMapping
    by_cases hgt : st.length > mappSize
    · have hdrop : (st.drop 1).length = st.length - 1 := by simp
      by_cases hmem : h ∈ st.drop 1
      · simp only [if_pos hgt, if_pos hmem]
        omega
      · simp only [if_pos hgt, if_neg hmem, List.length_append, List.length_cons]
        simp only [hdrop, List.length_nil]
        omega
    · by_cases hmem : h ∈ st
      · simp only [if_neg hgt, if_pos hmem]
        omega
      · simp only [if_neg hgt, if_neg hmem, List.length_append, List.length_cons]
        simp only [List.length_nil]
        omega
  constructor
  · exact step
  · intro hs
    have aux : ∀ (l : List String) (st : List String), st.length ≤ mappSize + 1 →
        (l.foldl (setMapping mappSize) st).length ≤ mappSize + 1 := by
      intro l
      induction l with
      | nil => intro st h; simpa using h
      | cons x rest ih =>
        intro st h
        rw [List.foldl_cons]
        exact ih _ (step st x h)
    exact aux hs [] (by simp)

/-- C7 amended witness: with `MappSize = 1` and the two-entry seen-set
reached above, one more insert keeps the size within `MappSize + 1`. -/
theorem c7_mapping_bound_witness :
    (setMapping 1 ["b", "c"] "d").length ≤ 2 ∧
    ((["a", "b", "c", "d"] : List String).foldl (setMapping 1) []).length ≤ 2 := by
  exact ⟨(c7_mapping_bound 1).1 ["b", "c"] "d" (by decide),
    (c7_mapping_bound 1).2 ["a", "b", "c", "d"]⟩

/-- Appending one digit multiplies the accumulated value by the base. -/
theorem digitsVal_append (base : Nat) (l : List Nat) (d : Nat) :
    digitsVal base (l ++ [d]) = digitsVal base l * base + d := by
  simp [digitsVal, List.foldl_append]

/-- With enough fuel, the big-endian expansion evaluates back to the
number it was produced from. -/
theorem digitsVal_natDigitsBE (base : Nat) (hb : 2 ≤ base) :
    ∀ (fuel n : Nat), n ≤ fuel → digitsVal base (natDigitsBE base fuel n) = n := by
  intro fuel
  induction fuel with
  | zero =>
    intro n hn
    have h0 : n = 0 := by omega
    subst h0
    rfl
  | succ f ih =>
    intro n hn
    by_cases h0 : n = 0
    · subst h0
      simp [natDigitsBE, digitsVal]
    · have hdiv : n / base < n := Nat.div_lt_self (Nat.pos_of_ne_zero h0) (by omega)
      rw [natDigitsBE, if_neg h0, digitsVal_append, ih (n / base) (by omega)]
      rw [Nat.mul_comm]
      exact Nat.div_add_mod n base

/-- Digits of the big-endian expansion are below the base. -/
theorem natDigitsBE_lt (base : Nat) (hb : 0 < base) :
    ∀ (fuel n : Nat), ∀ d ∈ natDigitsBE base fuel n, d < base := by
  intro fuel
  induction fuel with
  | zero => intro n d hd; simp [natDigitsBE] at hd
  | succ f ih =>
    intro n d hd
    by_cases h0 : n = 0
    · subst h0
      simp [natDigitsBE] at hd
    · rw [natDigitsBE, if_neg h0] at hd
      rcases List.mem_append.mp hd with hd | hd
      · exact ih _ d hd
      · have : d = n % base := by simpa using hd
        rw [this]
        exact Nat.mod_lt _ hb

/-- The big-endian expansion of a positive number is nonempty. -/
theorem natDigitsBE_ne_nil (base : Nat) (fuel n : Nat) (h0 : 0 < n) (hn : n ≤ fuel) :
    natDigitsBE base fuel n ≠ [] := by
  cases fuel with
  | zero => omega
  | succ f =>
    rw [natDigitsBE, if_neg (by omega)]
    simp

/-- The code point of a decimal digit character. -/
theorem digitChar_toNat (d : Nat) (hd : d < 10) : (digitChar d).toNat = 48 + d := by
  interval_cases d <;> decide

/-- Parsing the character rendering of a digit list accumulates its
base-10 value. -/
theorem parseDigitsAux_map (l : List Nat) :
    ∀ acc : Nat, (∀ d ∈ l, d < 10) →
      parseDigitsAux (l.map digitChar) acc =
        some (l.foldl (fun a d => a * 10 + d) acc) := by
  induction l with
  | nil => intro acc _; rfl
  | cons d rest ih =>
    intro acc hlt
    have hd : d < 10 := hlt d (List.mem_cons_self d rest)
    have htn : (digitChar d).toNat = 48 + d := digitChar_toNat d hd
    rw [List.map_cons, parseDigitsAux, htn, if_pos (by omega)]
    have hsub : 48 + d - 48 = d := by omega
    rw [hsub, List.foldl_cons]
    exact ih (acc * 10 + d) (fun e he => hlt e (List.mem_cons_of_mem d he))

/-- Parsing the rendering of a nonempty digit list recovers its value. -/
theorem parseDigits_map (l : List Nat) (hne : l ≠ []) (hlt : ∀ d ∈ l, d < 10) :
    parseDigits (l.map digitChar) = some (digitsVal 10 l) := by
  cases l with
  | nil => exact absurd rfl hne
  | cons d rest =>
    rw [List.map_cons, parseDigits]
    · exact parseDigitsAux_map (d :: rest) 0 hlt
    · simp

/-- C9: parsing the decimal rendering of any `BigInt` yields the same
value (`NewInt(x.String()) == x`), and for non-negative `x` loading the
big-endian byte encoding yields the same value
(`LoadInt(x.Bytes()) == x`). -/
theorem c9_bigint_roundtrip (x : Int) :
    NewInt (bigString x) = some x ∧ (0 ≤ x → LoadInt (bigBytes x) = x) := by
  constructor
  · rcases lt_trichotomy x 0 with hneg | h0 | hpos
    · have ha : 0 < x.natAbs := by omega
      have hlt := natDigitsBE_lt 10 (by omega) x.natAbs x.natAbs
      have hne := natDigitsBE_ne_nil 10 x.natAbs x.natAbs ha le_rfl
      rw [bigString, if_pos hneg, NewInt]
      dsimp only
      rw [if_pos rfl, parseDigits_map _ hne hlt,
        digitsVal_natDigitsBE 10 (by omega) x.natAbs x.natAbs le_rfl]
      simp only [Option.map_some']
      congr 1
      omega
    · subst h0
      decide
    · have ha : 0 < x.natAbs := by omega
      have hlt := natDigitsBE_lt 10 (by omega) x.natAbs x.natAbs
      have hne := natDigitsBE_ne_nil 10 x.natAbs x.natAbs ha le_rfl
      obtain ⟨d, D, hD⟩ := List.exists_cons_of_ne_nil hne
      have hd : d < 10 := hlt d (by rw [hD]; exact List.mem_cons_self d D)
      have htn : (digitChar d).toNat = 48 + d := digitChar_toNat d hd
      have hminus : ¬(digitChar d = '-') := by
        intro hc
        have : (digitChar d).toNat = 45 := by rw [hc]; decide
        omega
      have hplus : ¬(digitChar d = '+') := by
        intro hc
        have : (digitChar d).toNat = 43 := by rw [hc]; decide
        omega
      rw [bigString, if_neg (by omega), if_neg (by omega), NewInt]
      rw [hD, List.map_cons]
      dsimp only
      rw [if_neg hminus, if_neg hplus, ← List.map_cons, ← hD,
        parseDigits_map _ hne hlt,
        digitsVal_natDigitsBE 10 (by omega) x.natAbs x.natAbs le_rfl]
      simp only [Option.map_some']
      congr 1
      omega
  · intro hx
    rw [LoadInt, bigBytes,
      digitsVal_natDigitsBE 256 (by omega) x.natAbs x.natAbs le_rfl]
    omega

/-- C9 witness: a negative decimal round-trip and a positive byte
round-trip at concrete values. -/
theorem c9_bigint_roundtrip_witness :
    NewInt (bigString (-1234)) = some (-1234) ∧ LoadInt (bigBytes 560) = 560 :=
  ⟨(c9_bigint_roundtrip (-1234)).1, (c9_bigint_roundtrip 560).2 (by norm_num)⟩

/-- C1: the claim says `Chain.IsValid()` is true iff every block is
individually valid and the back-link chain is consistent.  The code
instead compares every block's `LastHash()` against the hash of the tail
block, so it returns `false` on the perfectly consistent one-block chain
`chain1` (whose genesis back-link `[0]` differs from its own content
hash `[1]`): the chain satisfies the claim's validity condition, yet
`ChainT.IsValid` reports `false`. -/
theorem c1_isvalid_code_bug :
    specChainIsValid [0] chain1 = true ∧ ChainT.IsValid chain1 = false := by
  decide

/-- C4: the claim says `Append` rejects a null block, returning the
`"block is null"` error with the chain unchanged.  In the source that
error branch is dead: `obj.(Block)` panics on a nil interface before
the `block == nil` check runs (and a typed nil passes the assertion as
a non-nil interface), so `Append(nil)` panics — `none` in the model —
instead of returning the error; the dead nil-check in the code and the
spec show the error return was the intent.  The surviving cases behave
as claimed, as the remaining conjuncts evaluate on `chain1`: an invalid
block and a mis-linked block are rejected with their errors and the
chain unchanged, and a valid well-linked block is appended with the
length incremented to 2. -/
theorem c4_append_null_code_bug :
    chain1.Append none = none ∧
    chain1.Append (some badBlock) = some (some "block is invalid", chain1) ∧
    chain1.Append (some gBlock) = some (some "relation is invalid", chain1) ∧
    chain1.Append (some bBlock) = some (none, ⟨2, [gBlock, bBlock]⟩) := by
  decide

/-- C8 counterexample: the claim says out-of-range arguments fail with
a range-error, but Go slice expressions are bounded by the backing
capacity, not the length: on `chain1` (one block) with backing
capacity 2 — a state the runtime produces whenever `append`
over-allocates — `Range(0, 2)` succeeds, returning the slice padded
past the length with a nil block, even though `2 > length`. -/
theorem c8_counterexample :
    chain1.Range 2 0 2 = some [some gBlock, none] ∧
    ¬((2 : Int) ≤ chain1.length) := by
  decide

/-- C8 (amended): for `0 ≤ x ≤ y ≤ length`, `Range(x, y)` returns the
half-open slice `[x, y)` of the chain's blocks.  Out-of-range arguments
do not reliably fail: slicing is capacity-bounded, so any `y` up to the
backing capacity succeeds, with the tail of the result beyond the
length reading as nil blocks, and only arguments with `x > y` or with
`y` beyond the capacity fail with the slice-bounds panic (the
*range-error*). -/
theorem c8_range (c : ChainT) (cap : Nat) (x y : Int) (hwf : ChainWF c)
    (hcap : c.blocks.length ≤ cap) (hcapsz : cap < 2 ^ 64) :
    (0 ≤ x → x ≤ y → y ≤ c.length →
      c.Range cap x y = some (((c.blocks.map some).take y.toNat).drop x.toNat)) ∧
    (0 ≤ x → x ≤ y → y ≤ (cap : Int) →
      c.Range cap x y = some (((c.blocks.map some ++
        List.replicate (cap - c.blocks.length) none).take y.toNat).drop x.toNat)) ∧
    (0 ≤ x → 0 ≤ y → x < 2 ^ 64 → y < 2 ^ 64 → ¬(x ≤ y ∧ y ≤ (cap : Int)) →
      c.Range cap x y = none) := by
  obtain ⟨hlen, -, hsz, -⟩ := hwf
  have hcapI : (cap : Int) < 2 ^ 64 := by exact_mod_cast hcapsz
  have main : ∀ x y : Int, 0 ≤ x → x ≤ y → y ≤ (cap : Int) →
      c.Range cap x y = some (((c.blocks.map some ++
        List.replicate (cap - c.blocks.length) none).take y.toNat).drop x.toNat) := by
    intro x y hx hxy hyc
    have hylt : y < 2 ^ 64 := lt_of_le_of_lt hyc hcapI
    have hxlt : x < 2 ^ 64 := lt_of_le_of_lt hxy hylt
    have hux : Uint64 x = x.toNat := Uint64_eq_toNat hx hxlt
    have huy : Uint64 y = y.toNat := Uint64_eq_toNat (le_trans hx hxy) hylt
    have hcond : Uint64 x ≤ Uint64 y ∧ Uint64 y ≤ cap := by
      rw [hux, huy]
      omega
    rw [ChainT.Range, if_pos hcond, hux, huy, List.drop_take]
  refine ⟨?_, main x y, ?_⟩
  · intro hx hxy hyl
    rw [hlen] at hyl
    have hyc : y ≤ (cap : Int) := le_trans hyl (by exact_mod_cast hcap)
    rw [main x y hx hxy hyc]
    have hytn : y.toNat ≤ (c.blocks.map some).length := by
      rw [List.length_map]
      omega
    rw [List.take_append_of_le_length hytn]
  · intro hx hy hxlt hylt hbad
    have hux : Uint64 x = x.toNat := Uint64_eq_toNat hx hxlt
    have huy : Uint64 y = y.toNat := Uint64_eq_toNat hy hylt
    have hcond : ¬(Uint64 x ≤ Uint64 y ∧ Uint64 y ≤ cap) := by
      rw [hux, huy]
      omega
    rw [ChainT.Range, if_neg hcond]

/-- C8 witness: on `chain1` with backing capacity 3, an in-length slice
returns the block, a capacity-window slice returns the nil-padded
tail, and a beyond-capacity slice fails. -/
theorem c8_range_witness :
    chain1.Range 3 0 1 = some [some gBlock] ∧
    chain1.Range 3 0 3 = some [some gBlock, none, none] ∧
    chain1.Range 3 0 4 = none := by
  refine ⟨?_, ?_, ?_⟩
  · exact ((c8_range chain1 3 0 1 (by decide) (by decide) (by decide)).1
      (by decide) (by decide) (by decide)).trans (by decide)
  · exact ((c8_range chain1 3 0 3 (by decide) (by decide) (by decide)).2.1
      (by decide) (by decide) (by decide)).trans (by decide)
  · exact (c8_range chain1 3 0 4 (by decide) (by decide) (by decide)).2.2
      (by decide) (by decide) (by norm_num) (by norm_num) (by decide)

/-- `lazySpecList` never returns below the `-1` sentinel. -/
theorem lazySpecList_ge (pub : PubKey) : ∀ l : List Block, -1 ≤ lazySpecList pub l := by
  intro l
  induction l with
  | nil => simp [lazySpecList]
  | cons b rest ih =>
    by_cases hb : blockHasPub b pub
    · simp [lazySpecList, hb]
    · by_cases hr : lazySpecList pub rest = -1
      · simp [lazySpecList, hb, hr]
      · simp only [lazySpecList, hb, if_false, hr, if_neg, Bool.false_eq_true]
        omega

/-- Consecutive back-link consistency, read off position by position. -/
theorem backLinksOk_get : ∀ (L : List Block), backLinksOk L = true →
    ∀ i (h : i + 1 < L.length), L[i + 1].lastHash = L[i].hash := by
  intro L
  induction L with
  | nil => intro _ i h; simp at h
  | cons a rest ih =>
    intro hok i h
    cases rest with
    | nil => simp at h
    | cons b rest' =>
      rw [backLinksOk] at hok
      have h1 : (b.lastHash == a.hash) = true := (Bool.and_eq_true_iff.mp hok).1
      have h2 : backLinksOk (b :: rest') = true := (Bool.and_eq_true_iff.mp hok).2
      cases i with
      | zero =>
        simpa using eq_of_beq h1
      | succ j =>
        have hj : j + 1 < (b :: rest').length := by
          simpa using h
        simpa using ih h2 j hj

/-- In a hash-distinct block list, `Find` on a member's hash returns
exactly that member. -/
theorem find_hash_of_mem (c : ChainT) (hnd : (c.blocks.map Block.hash).Nodup)
    (b : Block) (hb : b ∈ c.blocks) :
    c.Find b.hash = some b := by
  unfold ChainT.Find
  cases hfind : c.blocks.find? (fun x => x.hash == b.hash) with
  | none =>
    exfalso
    have := List.find?_eq_none.mp hfind b hb
    simp at this
  | some b0 =>
    have hmem : b0 ∈ c.blocks := List.mem_of_find?_eq_some hfind
    have hhash : b0.hash = b.hash := by
      have := List.find?_some hfind
      simpa using this
    have : b0 = b := List.inj_on_of_nodup_map hnd hmem hb hhash
    rw [this]

/-- `Find` on a hash carried by no block returns `nil`. -/
theorem find_eq_none_of_fresh (c : ChainT) (target : Hash)
    (h : ∀ b ∈ c.blocks, target ≠ b.hash) :
    c.Find target = none := by
  unfold ChainT.Find
  refine List.find?_eq_none.mpr ?_
  intro x hx
  simp only [beq_iff_eq]
  exact fun hc => h x hx hc.symm

/-- Under well-formedness, `LastHash` is the hash of the tail block. -/
theorem lastHash_wf (c : ChainT) (hwf : ChainWF c) :
    ∀ h : c.blocks.length - 1 < c.blocks.length,
      c.LastHash = c.blocks[c.blocks.length - 1].hash := by
  obtain ⟨hlen, hne, hsz, -⟩ := hwf
  intro h
  unfold ChainT.LastHash
  have hu : Uint64 c.length = c.blocks.length := by
    rw [hlen]
    have := Uint64_eq_toNat (x := (c.blocks.length : Int)) (by positivity)
      (by exact_mod_cast hsz)
    simpa using this
  rw [hu, List.getD_eq_getElem _ _ h]

/-- `Block.Range(0, Length())` recovers the full transaction list. -/
theorem block_range_full (b : Block) (hb : b.txs.length < 2 ^ 64) :
    b.Range 0 b.Length = some b.txs := by
  unfold Block.Range Block.Length
  have h0 : Uint64 0 = 0 := by decide
  have hy : Uint64 (b.txs.length : Int) = b.txs.length := by
    have := Uint64_eq_toNat (x := (b.txs.length : Int)) (by positivity)
      (by exact_mod_cast hb)
    simpa using this
  rw [h0, hy, if_pos (by omega)]
  simp

/-- The `LazyInterval` loop, started at block `k` of a well-formed chain
with accumulator `d` and enough fuel, computes `specWalkAux`. -/
theorem lazyGo_spec (c : ChainT) (pub : PubKey) (hwf : ChainWF c) :
    ∀ (k : Nat) (hk : k < c.blocks.length) (d : Int) (fuel : Nat), k < fuel →
      c.lazyGo pub fuel c.blocks[k] d =
        some (specWalkAux c.blocks pub k d) := by
  obtain ⟨hlen, hne, hsz, hnd, hbl, hgen, htx⟩ := hwf
  intro k
  induction k with
  | zero =>
    intro hk d fuel hfuel
    obtain ⟨f, rfl⟩ : ∃ f, fuel = f + 1 := ⟨fuel - 1, by omega⟩
    have hmem : c.blocks[0] ∈ c.blocks := c.blocks.getElem_mem hk
    have hgd : c.blocks.getD 0 default = c.blocks[0] :=
      List.getD_eq_getElem _ _ hk
    simp only [ChainT.lazyGo, specWalkAux, hgd]
    rw [block_range_full _ (htx _ hmem)]
    by_cases hv : c.blocks[0].validator = pub
    · simp [blockHasPub, hv]
    · by_cases ha : ∃ x ∈ c.blocks[0].txs, x.validator = pub
      · simp [blockHasPub, hv, ha]
      · have hfind : c.Find c.blocks[0].lastHash = none := by
          refine find_eq_none_of_fresh c _ ?_
          intro x hx
          have := hgen x hx
          rwa [hgd] at this
        simp [blockHasPub, hv, ha, hfind]
  | succ j ih =>
    intro hk d fuel hfuel
    obtain ⟨f, rfl⟩ : ∃ f, fuel = f + 1 := ⟨fuel - 1, by omega⟩
    have hmem : c.blocks[j + 1] ∈ c.blocks := c.blocks.getElem_mem hk
    have hgd : c.blocks.getD (j + 1) default = c.blocks[j + 1] :=
      List.getD_eq_getElem _ _ hk
    simp only [ChainT.lazyGo, specWalkAux, hgd]
    rw [block_range_full _ (htx _ hmem)]
    by_cases hv : c.blocks[j + 1].validator = pub
    · simp [blockHasPub, hv]
    · by_cases ha : ∃ x ∈ c.blocks[j + 1].txs, x.validator = pub
      · simp [blockHasPub, hv, ha]
      · have hj : j < c.blocks.length := Nat.lt_of_succ_lt hk
        have hlink : c.blocks[j + 1].lastHash = c.blocks[j].hash :=
          backLinksOk_get c.blocks hbl j hk
        have hfind : c.Find c.blocks[j + 1].lastHash = some c.blocks[j] := by
          rw [hlink]
          exact find_hash_of_mem c hnd _ (c.blocks.getElem_mem hj)
        have hrec := ih hj (d + 1) f (by omega)
        simp [blockHasPub, hv, ha, hfind, hrec]

/-- The genesis-indexed walk agrees with the tail-first specification
read on the reversed prefix ending at the start block. -/
theorem specWalkAux_eq (L : List Block) (pub : PubKey) :
    ∀ (k : Nat), k < L.length → ∀ d : Int,
      specWalkAux L pub k d =
        (if lazySpecList pub ((L.take (k + 1)).reverse) = -1 then -1
         else d + lazySpecList pub ((L.take (k + 1)).reverse)) := by
  intro k
  induction k with
  | zero =>
    intro hk d
    cases L with
    | nil => simp at hk
    | cons a tl =>
      by_cases hb : blockHasPub a pub
      · simp [specWalkAux, lazySpecList, hb]
      · simp [specWalkAux, lazySpecList, hb]
  | succ j ih =>
    intro hk d
    have hj : j < L.length := Nat.lt_of_succ_lt hk
    have hsome : L[j + 1]? = some L[j + 1] := List.getElem?_eq_getElem hk
    have htake : L.take (j + 1 + 1) = L.take (j + 1) ++ [L[j + 1]] := by
      rw [List.take_succ, hsome]
      rfl
    have hrev : (L.take (j + 1 + 1)).reverse =
        L[j + 1] :: (L.take (j + 1)).reverse := by
      rw [htake, List.reverse_append]
      rfl
    have hgd : L.getD (j + 1) default = L[j + 1] := List.getD_eq_getElem _ _ hk
    rw [hrev]
    by_cases hb : blockHasPub L[j + 1] pub
    · simp [specWalkAux, lazySpecList, hb, hgd, hsome]
    · have hge := lazySpecList_ge pub ((L.take (j + 1)).reverse)
      by_cases hr : lazySpecList pub ((L.take (j + 1)).reverse) = -1
      · simp [specWalkAux, lazySpecList, hb, hgd, hsome, hr, ih hj (d + 1)]
      · have hne1 : ¬(lazySpecList pub ((L.take (j + 1)).reverse) + 1 = -1) := by
          omega
        simp only [specWalkAux, lazySpecList, hb, if_false, hgd, hsome,
          ih hj (d + 1), hr, if_neg, hne1]
        simp only [Bool.false_eq_true, if_false]
        omega

/-- `ChainT.LazyInterval` on a well-formed chain computes the tail-first
walk specification on the reversed block list. -/
theorem lazyInterval_eq_spec (c : ChainT) (pub : PubKey) (hwf : ChainWF c) :
    c.LazyInterval pub = some (lazySpecList pub c.blocks.reverse) := by
  have hne := hwf.2.1
  have hnd := hwf.2.2.2.1
  have hlen0 : 0 < c.blocks.length := List.length_pos.mpr hne
  have hlast : c.blocks.length - 1 < c.blocks.length := by omega
  have hlh := lastHash_wf c hwf hlast
  have hfind : c.Find c.LastHash = some c.blocks[c.blocks.length - 1] := by
    rw [hlh]
    exact find_hash_of_mem c hnd _ (c.blocks.getElem_mem hlast)
  unfold ChainT.LazyInterval
  rw [hfind]
  simp only
  rw [lazyGo_spec c pub hwf (c.blocks.length - 1) hlast 0 (c.blocks.length + 1)
    (by omega)]
  congr 1
  rw [specWalkAux_eq c.blocks pub (c.blocks.length - 1) hlast 0]
  have hsucc : c.blocks.length - 1 + 1 = c.blocks.length := by omega
  rw [hsucc, List.take_length]
  by_cases hr : lazySpecList pub c.blocks.reverse = -1
  · simp [hr]
  · simp [hr]

/-- C2: on a well-formed chain, `Chain.LazyInterval(pub)` returns the
number of blocks one must walk back from the tail before encountering a
block in which `pub` appears as block validator or transaction
validator (`lazySpecList` on the tail-first block list), and `-1` when
the backward walk falls off the chain without encountering `pub`. -/
theorem c2_lazy_interval (c : ChainT) (pub : PubKey) (hwf : ChainWF c) :
    c.LazyInterval pub = some (lazySpecList pub c.blocks.reverse) :=
  lazyInterval_eq_spec c pub hwf

/-- C2 witness: on the concrete two-block chain, the tail validator has
lazy interval 0 and an unseen key gets the `-1` sentinel. -/
theorem c2_lazy_interval_witness :
    chain2.LazyInterval vA = some 0 ∧ chain2.LazyInterval pubW = some (-1) := by
  constructor
  · exact (c2_lazy_interval chain2 vA (by decide)).trans (by decide)
  · exact (c2_lazy_interval chain2 pubW (by decide)).trans (by decide)

/-- Appending one candidate to a running maximum. -/
theorem foldMax_append (ι : PubKey → Int) (l : List PubKey) (p : PubKey) :
    foldMax ι (l ++ [p]) = max (foldMax ι l) (ι p) := by
  simp [foldMax, List.foldl_append]

/-- The seed never exceeds the running maximum. -/
theorem foldl_max_init_le (ι : PubKey → Int) :
    ∀ (l : List PubKey) (a : Int), a ≤ l.foldl (fun m p => max m (ι p)) a := by
  intro l
  induction l with
  | nil => intro a; simp
  | cons p rest ih =>
    intro a
    calc a ≤ max a (ι p) := le_max_left _ _
    _ ≤ rest.foldl (fun m p => max m (ι p)) (max a (ι p)) := ih _

/-- Every member's value is below the running maximum. -/
theorem le_foldl_max_of_mem (ι : PubKey → Int) :
    ∀ (l : List PubKey) (a : Int) (q : PubKey), q ∈ l →
      ι q ≤ l.foldl (fun m p => max m (ι p)) a := by
  intro l
  induction l with
  | nil => intro a q hq; simp at hq
  | cons p rest ih =>
    intro a q hq
    rcases List.mem_cons.mp hq with hq | hq
    · subst hq
      calc ι q ≤ max a (ι q) := le_max_right _ _
      _ ≤ rest.foldl (fun m p => max m (ι p)) (max a (ι q)) := foldl_max_init_le ι rest _
    · exact ih _ q hq

/-- The running maximum is the seed or is attained by some member. -/
theorem foldl_max_attained (ι : PubKey → Int) :
    ∀ (l : List PubKey) (a : Int),
      l.foldl (fun m p => max m (ι p)) a = a ∨
      ∃ q ∈ l, l.foldl (fun m p => max m (ι p)) a = ι q := by
  intro l
  induction l with
  | nil => intro a; left; rfl
  | cons p rest ih =>
    intro a
    rw [List.foldl_cons]
    rcases ih (max a (ι p)) with h | ⟨q, hq, hqe⟩
    · rcases le_total (ι p) a with hle | hle
      · left
        rw [h, max_eq_left hle]
      · right
        exact ⟨p, List.mem_cons_self p rest, by rw [h, max_eq_right hle]⟩
    · right
      exact ⟨q, List.mem_cons_of_mem p hq, hqe⟩

/-- Every member's value is below `foldMax`. -/
theorem le_foldMax_of_mem (ι : PubKey → Int) (l : List PubKey) (q : PubKey)
    (hq : q ∈ l) : ι q ≤ foldMax ι l :=
  le_foldl_max_of_mem ι l 0 q hq

/-- `foldMax` is 0 or attained by a member. -/
theorem foldMax_attained (ι : PubKey → Int) (l : List PubKey) :
    foldMax ι l = 0 ∨ ∃ q ∈ l, foldMax ι l = ι q :=
  foldl_max_attained ι l 0

/-- The selection loop of `SelectLazy`, run after having processed
`seen`, ends with exactly the candidates attaining the running maximum,
in candidate order, and that maximum. -/
theorem selectLoop_char (c : ChainT) (ι : PubKey → Int)
    (hι : ∀ p, c.LazyInterval p = some (ι p)) :
    ∀ (vs seen : List PubKey),
      c.selectLoop vs (seen.filter (fun p => ι p == foldMax ι seen)) (foldMax ι seen) =
        some ((seen ++ vs).filter (fun p => ι p == foldMax ι (seen ++ vs)),
          foldMax ι (seen ++ vs)) := by
  intro vs
  induction vs with
  | nil =>
    intro seen
    simp [ChainT.selectLoop]
  | cons p rest ih =>
    intro seen
    rw [ChainT.selectLoop, hι p]
    dsimp only
    have hassoc : seen ++ p :: rest = (seen ++ [p]) ++ rest := by simp
    rcases lt_trichotomy (foldMax ι seen) (ι p) with hlt | heq | hgt
    · rw [if_pos hlt]
      have hM : foldMax ι (seen ++ [p]) = ι p := by
        rw [foldMax_append, max_eq_right (le_of_lt hlt)]
      have hfil : (seen ++ [p]).filter (fun q => ι q == foldMax ι (seen ++ [p])) = [p] := by
        rw [hM, List.filter_append]
        have h1 : seen.filter (fun q => ι q == ι p) = [] := by
          rw [List.filter_eq_nil_iff]
          intro q hq
          have := le_foldMax_of_mem ι seen q hq
          simp only [beq_iff_eq]
          omega
        rw [h1]
        simp
      have := ih (seen ++ [p])
      rw [hfil] at this
      rw [hM] at this
      rw [hassoc]
      exact this
    · rw [if_neg (by omega), if_pos heq.symm]
      have hM : foldMax ι (seen ++ [p]) = foldMax ι seen := by
        rw [foldMax_append, max_eq_left (le_of_eq heq.symm)]
      have hfil : (seen ++ [p]).filter (fun q => ι q == foldMax ι (seen ++ [p])) =
          seen.filter (fun q => ι q == foldMax ι seen) ++ [p] := by
        rw [hM, List.filter_append]
        congr 1
        simp [heq.symm]
      have := ih (seen ++ [p])
      rw [hfil] at this
      rw [hM] at this
      rw [hassoc]
      exact this
    · rw [if_neg (by omega), if_neg (by omega)]
      have hM : foldMax ι (seen ++ [p]) = foldMax ι seen := by
        rw [foldMax_append, max_eq_left (le_of_lt hgt)]
      have hfil : (seen ++ [p]).filter (fun q => ι q == foldMax ι (seen ++ [p])) =
          seen.filter (fun q => ι q == foldMax ι seen) := by
        rw [hM, List.filter_append]
        have h1 : [p].filter (fun q => ι q == foldMax ι seen) = [] := by
          simp only [List.filter_cons, List.filter_nil, beq_iff_eq]
          rw [if_neg (by omega)]
        rw [h1, List.append_nil]
      have := ih (seen ++ [p])
      rw [hfil] at this
      rw [hM] at this
      rw [hassoc]
      exact this

/-- With one candidate of non-negative lazy interval, the tied list is
nonempty. -/
theorem tiedLazy_ne_nil (c : ChainT) (vs : List PubKey)
    (hex : ∃ p ∈ vs, 0 ≤ lazyOf c p) : tiedLazy c vs ≠ [] := by
  obtain ⟨p, hp, hp0⟩ := hex
  rcases foldMax_attained (lazyOf c) vs with h0 | ⟨q, hq, hqe⟩
  · have hle : lazyOf c p ≤ foldMax (lazyOf c) vs := le_foldMax_of_mem _ vs p hp
    have hmem : p ∈ tiedLazy c vs := by
      refine List.mem_filter.mpr ⟨hp, ?_⟩
      simp only [beq_iff_eq, maxLazy]
      omega
    exact List.ne_nil_of_mem hmem
  · have hmem : q ∈ tiedLazy c vs := by
      refine List.mem_filter.mpr ⟨hq, ?_⟩
      simp only [beq_iff_eq, maxLazy]
      omega
    exact List.ne_nil_of_mem hmem

/-- The selection loop on candidates of known lazy intervals ends with
the tied maximal candidates and the tracked maximum. -/
theorem selectLoop_closed (c : ChainT) (vs : List PubKey) (hwf : ChainWF c) :
    c.selectLoop vs [] 0 = some (tiedLazy c vs, maxLazy c vs) := by
  have hι : ∀ p, c.LazyInterval p = some (lazyOf c p) := fun p =>
    lazyInterval_eq_spec c p hwf
  have hloop := selectLoop_char c (lazyOf c) hι vs []
  simpa [tiedLazy, maxLazy, foldMax] using hloop

/-- C3 counterexample: the claim quantifies over every non-empty
validator list, but on the concrete chain `chain1` and the non-empty
list `[pubW]` — whose only candidate has lazy interval `-1` — the code
panics on `finds[0]` (modelled as `none`) instead of returning a
validator of maximal lazy interval. -/
theorem c3_counterexample :
    chain1.SelectLazy [pubW] = none ∧ ([pubW] : List PubKey) ≠ [] := by
  decide

/-- C3 (amended): for every validator list containing at least one
candidate with non-negative lazy interval, `SelectLazy` returns the
element of the tied maximal candidates — stably sorted by address
ascending — at index `u64(load(chain.LastHash())) mod |tied|`, and the
returned validator's lazy interval is maximal over the candidate set. -/
theorem c3_select_lazy (c : ChainT) (vs : List PubKey) (hwf : ChainWF c)
    (hex : ∃ p ∈ vs, 0 ≤ lazyOf c p) :
    c.SelectLazy vs =
      some ((sortByAddr (tiedLazy c vs)).getD
        (Uint64 (LoadInt c.LastHash) % (tiedLazy c vs).length) default) ∧
    ∀ p ∈ vs, lazyOf c p ≤
      lazyOf c ((sortByAddr (tiedLazy c vs)).getD
        (Uint64 (LoadInt c.LastHash) % (tiedLazy c vs).length) default) := by
  have hne : tiedLazy c vs ≠ [] := tiedLazy_ne_nil c vs hex
  have hpos : 0 < (tiedLazy c vs).length := List.length_pos.mpr hne
  have hrlt : Uint64 (LoadInt c.LastHash) % (tiedLazy c vs).length <
      (tiedLazy c vs).length := Nat.mod_lt _ hpos
  have hlen_sort : (sortByAddr (tiedLazy c vs)).length = (tiedLazy c vs).length :=
    (List.perm_insertionSort _ _).length_eq
  have hrlt2 : Uint64 (LoadInt c.LastHash) % (tiedLazy c vs).length <
      (sortByAddr (tiedLazy c vs)).length := by
    rw [hlen_sort]
    exact hrlt
  have hgetD : (sortByAddr (tiedLazy c vs)).getD
      (Uint64 (LoadInt c.LastHash) % (tiedLazy c vs).length) default =
      (sortByAddr (tiedLazy c vs))[Uint64 (LoadInt c.LastHash) % (tiedLazy c vs).length] :=
    List.getD_eq_getElem _ _ hrlt2
  constructor
  · unfold ChainT.SelectLazy
    rw [selectLoop_closed c vs hwf]
    dsimp only
    by_cases hlen : (tiedLazy c vs).length > 1
    · rw [if_pos hlen]
    · have h1 : (tiedLazy c vs).length = 1 := by omega
      obtain ⟨q, hq⟩ := List.length_eq_one.mp h1
      rw [if_neg hlen, hq]
      have hs : sortByAddr [q] = [q] := rfl
      rw [hs]
      simp [Nat.mod_one]
  · intro p hp
    have hmem : (sortByAddr (tiedLazy c vs))[Uint64 (LoadInt c.LastHash) %
        (tiedLazy c vs).length] ∈ sortByAddr (tiedLazy c vs) :=
      (sortByAddr (tiedLazy c vs)).getElem_mem hrlt2
    have hmemT := (List.perm_insertionSort
      (fun a b : PubKey => addrLe a b = true) (tiedLazy c vs)).mem_iff.mp hmem
    have hfil : (sortByAddr (tiedLazy c vs))[Uint64 (LoadInt c.LastHash) %
          (tiedLazy c vs).length] ∈ vs ∧
        lazyOf c ((sortByAddr (tiedLazy c vs))[Uint64 (LoadInt c.LastHash) %
          (tiedLazy c vs).length]) = maxLazy c vs := by
      simpa [tiedLazy] using hmemT
    rw [hgetD, hfil.2]
    exact le_foldMax_of_mem (lazyOf c) vs p hp

/-- C3 witness: on `chain3`, candidates `vB` and `vA` are tied at lazy
interval 0; sorted by address the tied list is `[vA, vB]`, the tail hash
loads as 2, and `2 mod 2 = 0` selects `vA`. -/
theorem c3_select_lazy_witness : chain3.SelectLazy [vB, vA] = some vA := by
  refine ((c3_select_lazy chain3 [vB, vA] (by decide)
    ⟨vB, by decide, by decide⟩).1).trans ?_
  decide

/-- C10: when every candidate's `LazyInterval` is negative (in
particular for the empty list, vacuously), the selection loop never
populates `finds`, so the final `finds[0]` access is out of range and
`SelectLazy` fails (modelled as `none`) instead of returning a
validator. -/
theorem c10_select_lazy_not_total (c : ChainT) (vs : List PubKey)
    (h : ∀ p ∈ vs, ∃ l, c.LazyInterval p = some l ∧ l < 0) :
    c.SelectLazy vs = none := by
  have hloop : ∀ (ws : List PubKey),
      (∀ p ∈ ws, ∃ l, c.LazyInterval p = some l ∧ l < 0) →
      c.selectLoop ws [] 0 = some ([], 0) := by
    intro ws
    induction ws with
    | nil => intro _; rfl
    | cons p rest ih =>
      intro hw
      obtain ⟨l, hl, hneg⟩ := hw p (List.mem_cons_self p rest)
      rw [ChainT.selectLoop, hl]
      dsimp only
      rw [if_neg (by omega), if_neg (by omega)]
      exact ih (fun q hq => hw q (List.mem_cons_of_mem p hq))
  unfold ChainT.SelectLazy
  rw [hloop vs h]
  rfl

/-- C10 witness: on the concrete chain `chain2` with the single unseen
candidate `pubZ` (lazy interval `-1`), and with the empty candidate
list, `SelectLazy` fails. -/
theorem c10_select_lazy_not_total_witness :
    chain2.SelectLazy [pubZ] = none ∧ chain2.SelectLazy [] = none := by
  constructor
  · apply c10_select_lazy_not_total
    intro p hp
    have hp' : p = pubZ := by simpa using hp
    subst hp'
    exact ⟨-1, by decide, by decide⟩
  · apply c10_select_lazy_not_total
    intro p hp
    simp at hp

end Laziest

